import Mathlib

/-!
Verification of `fix_code_style.py`, a three-pass C source style normalizer.

The script works on a file's content as a string.  `fix_function_spacing` and
`fix_return_spacing` immediately split the content on the newline character and
re-join at the end, and the regular expressions used by
`fix_comment_separators` (`/\*.*KEYWORD.*\*/` with a dot that does not match a
newline, keywords containing no newline) can only match inside a single line,
so a global `re.sub` over the content coincides with the same substitution
applied to each line separately.  We therefore embed a file content as a list
of lines, each line a list of characters (`content.split('\n')` in the
source); blank lines inserted by the passes are empty lists.
-/

namespace FixCodeStyle

abbrev Line := List Char

/-- Code points of the characters for which Python's `str.isspace` is true;
`str.strip()` with no argument and the regex class `\s` (on `str` patterns)
use exactly this set. -/
def pyWhitespace : List Nat :=
  [9, 10, 11, 12, 13, 28, 29, 30, 31, 32, 133, 160, 5760,
   8192, 8193, 8194, 8195, 8196, 8197, 8198, 8199, 8200, 8201, 8202,
   8232, 8233, 8239, 8287, 12288]

/-- Whether a character is whitespace in Python's sense. -/
def pyIsSpace (c : Char) : Bool := pyWhitespace.contains c.toNat

/-- Python's `line.strip()`: remove leading and trailing whitespace. -/
def strip (l : Line) : Line :=
  ((l.dropWhile pyIsSpace).reverse.dropWhile pyIsSpace).reverse

/-! ## Occurrence machinery for the banner regular expressions

`fix_comment_separators` performs `re.sub(r'/\*.*KW.*\*/', BANNER, content)`
for nine (keyword, banner) pairs.  Within one line, with a greedy `.*`, such a
pattern has a match iff the line contains `/*` starting at some position `p`,
the keyword starting at some `q ≥ p + 2`, and `*/` starting at some
`r ≥ q + KW.length`; the (unique) match then spans from the first `/*` of the
line to the end of the last `*/` of the line, and `re.sub` replaces that span
by the banner.  (This characterization of CPython's leftmost-greedy matching
was validated exhaustively against `re.sub` on randomized inputs.) -/

/-- Whether `pat` occurs in `l` starting at position `i`. -/
def occAt (pat l : Line) (i : Nat) : Bool := pat.isPrefixOf (l.drop i)

/-- All positions at which `pat` occurs in `l`, in increasing order. -/
def occList (pat l : Line) : List Nat :=
  (List.range (l.length + 1)).filter (fun i => occAt pat l i)

/-- Position of the first occurrence of `pat` in `l`, if any. -/
def firstOcc (pat l : Line) : Option Nat := (occList pat l).head?

/-- Position of the last occurrence of `pat` in `l`, if any. -/
def lastOcc (pat l : Line) : Option Nat := (occList pat l).getLast?

/-- The two-character comment opener `/*`. -/
def slashStar : Line := ['/', '*']

/-- The two-character comment closer `*/`. -/
def starSlash : Line := ['*', '/']

/-- One rule of `fix_comment_separators` on a single line:
`re.sub(r'/\*.*kw.*\*/', banner, line)`.  If the line has a first `/*` at
`p0`, an occurrence of `kw` at some `q ≥ p0 + 2`, and an occurrence of `*/`
at some `r ≥ q + kw.length`, the segment from `p0` to the end of the last
`*/` is replaced by `banner`; otherwise the line is unchanged. -/
def matchCond (kw l : Line) (p0 : Nat) : Bool :=
  (occList kw l).any (fun q =>
    decide (p0 + 2 ≤ q) &&
    (occList starSlash l).any (fun r => decide (q + kw.length ≤ r)))

def subBanner (kw banner l : Line) : Line :=
  match firstOcc slashStar l with
  | none => l
  | some p0 =>
    if matchCond kw l p0 then
      l.take p0 ++ banner ++ l.drop ((lastOcc starSlash l).getD 0 + 2)
    else l

theorem subBanner_none (kw B l : Line) (h : firstOcc slashStar l = none) :
    subBanner kw B l = l := by
  unfold subBanner
  rw [h]

theorem subBanner_pos (kw B l : Line) (p0 : Nat)
    (h1 : firstOcc slashStar l = some p0) (h2 : matchCond kw l p0 = true) :
    subBanner kw B l =
      l.take p0 ++ B ++ l.drop ((lastOcc starSlash l).getD 0 + 2) := by
  unfold subBanner
  rw [h1]
  show (if matchCond kw l p0 = true then
      l.take p0 ++ B ++ l.drop ((lastOcc starSlash l).getD 0 + 2) else l) = _
  rw [if_pos h2]

theorem subBanner_neg (kw B l : Line) (p0 : Nat)
    (h1 : firstOcc slashStar l = some p0) (h2 : matchCond kw l p0 = false) :
    subBanner kw B l = l := by
  unfold subBanner
  rw [h1]
  show (if matchCond kw l p0 = true then
      l.take p0 ++ B ++ l.drop ((lastOcc starSlash l).getD 0 + 2) else l) = _
  rw [if_neg (by rw [h2]; exact Bool.false_ne_true)]

/-- Keyword of the header-includes rule (note the single spaces: the source
pattern is `/\*.*头 文 件.*\*/`). -/
def kw1 : Line := "头 文 件".data
def kw2 : Line := "外部函数声明".data
def kw3 : Line := "外部声明".data
def kw4 : Line := "宏 定 义".data
def kw5 : Line := "类型定义".data
def kw6 : Line := "全局变量".data
def kw7 : Line := "模块变量".data
def kw8 : Line := "前向声明".data
def kw9 : Line := "函数实现".data

/-- Canonical banner for header includes. -/
def banner1 : Line := "/*************************** 头文件包含 ****************************/".data
def banner2 : Line := "/*************************** 外部函数声明 ****************************/".data
def banner3 : Line := "/*************************** 外部声明 ****************************/".data
def banner4 : Line := "/*************************** 宏定义 ****************************/".data
def banner5 : Line := "/*************************** 类型定义 ****************************/".data
def banner6 : Line := "/*************************** 全局变量 ****************************/".data
def banner7 : Line := "/*************************** 模块变量 ****************************/".data
def banner8 : Line := "/*************************** 前向声明 ****************************/".data
def banner9 : Line := "/*************************** 函数实现 ****************************/".data

/-- The ordered replacement table of `fix_comment_separators`. -/
def rules : List (Line × Line) :=
  [(kw1, banner1), (kw2, banner2), (kw3, banner3), (kw4, banner4),
   (kw5, banner5), (kw6, banner6), (kw7, banner7), (kw8, banner8),
   (kw9, banner9)]

/-- All nine substitutions applied in order to a single line. -/
def commLine (l : Line) : Line :=
  rules.foldl (fun acc r => subBanner r.1 r.2 acc) l

/-- The first pass, `fix_comment_separators`, on a file's lines. -/
def fix_comment_separators (lines : List Line) : List Line :=
  lines.map commLine

/-! ## Second pass: `fix_function_spacing` -/

/-- Condition under which `fix_function_spacing` inserts a blank line after
the current line `a` given the following line `b`: `a` strips to `}`, the
stripped `b` starts with `/**`, and the `has_empty` scan found no blank line
(its loop starts at `b`, so it reports a blank iff `b` itself is blank). -/
def funcIns (a b : Line) : Bool :=
  strip a == ['}'] && "/**".data.isPrefixOf (strip b) && !(strip b).isEmpty

/-- The second pass: walk the lines; after a line that strips to `}` whose
successor's strip starts with `/**`, append one blank line. -/
def fix_function_spacing : List Line → List Line
  | [] => []
  | a :: rest =>
    a :: (match rest with
          | [] => []
          | b :: _ =>
            if funcIns a b then ([] : Line) :: fix_function_spacing rest
            else fix_function_spacing rest)

/-! ## Third pass: `fix_return_spacing` -/

/-- Whether a stripped line is a return statement for `fix_return_spacing`:
it equals `return;`, or matches `re.match(r'^return\s+.*;', ·)`, i.e. it
starts with `return`, its seventh character is whitespace, and a `;` occurs
at some position ≥ 7. -/
def retQual (s : Line) : Bool :=
  s == "return;".data ||
  ("return".data.isPrefixOf s &&
    (match s.drop 6 with
     | [] => false
     | c :: t => pyIsSpace c && t.contains ';'))

/-- The indices visited by the backward scan `range(i - 1, max(0, i - 5), -1)`
of `fix_return_spacing`, in scan (descending) order.  The stop bound is
exclusive, so the scanned set is `max 1 (i - 4), …, i - 1`; index 0 is never
visited. -/
def windowIdxs (i : Nat) : List Nat :=
  (List.range' (max 1 (i - 4)) (i - max 1 (i - 4))).reverse

/-- The backward brace scan on a list of lines in scan order: stop with
`False` at a line stripping to `}`, with `True` at one stripping to `{`,
`False` if the scan is exhausted. -/
def braceScanL : List Line → Bool
  | [] => false
  | l :: ls =>
    if strip l == ['}'] then false
    else if strip l == ['{'] then true
    else braceScanL ls

/-- The `in_function` flag computed for the return at index `i`. -/
def inFunction (lines : List Line) (i : Nat) : Bool :=
  braceScanL ((windowIdxs i).map (fun j => lines.getD j []))

/-- Whether `fix_return_spacing` inserts a blank line before line `i`:
the line qualifies as a return statement, `i > 0` and the previous line is
not blank, `in_function` holds, and it is not the last statement (the next
line exists and strips to `}`). -/
def retInsert (lines : List Line) (i : Nat) : Bool :=
  retQual (strip (lines.getD i [])) &&
  (decide (0 < i) && !(strip (lines.getD (i - 1) [])).isEmpty) &&
  inFunction lines i &&
  !(decide (i + 1 < lines.length) && (strip (lines.getD (i + 1) []) == ['}']))

/-- The lines emitted for index `i`: the blank line first when inserted
(`result.pop(); result.append(''); result.append(lines[i])` in the source). -/
def retSeg (lines : List Line) (i : Nat) : List Line :=
  if retInsert lines i then [([] : Line), lines.getD i []] else [lines.getD i []]

/-- The third pass: emit each line, preceded by a blank line when
`retInsert` holds at its index.  The source's loop decides every index
against the original `lines` list while appending to `result`. -/
def fix_return_spacing (lines : List Line) : List Line :=
  ((List.range lines.length).map (retSeg lines)).flatten

/-- The transformation `process_file` applies to a file's content:
the three passes in order. -/
def processContent (lines : List Line) : List Line :=
  fix_return_spacing (fix_function_spacing (fix_comment_separators lines))

/-! ## Basic lemmas about `isPrefixOf` and occurrences -/

theorem isPrefixOf_iff_take (p : Line) : ∀ l : Line,
    p.isPrefixOf l = true ↔ l.take p.length = p := by
  induction p with
  | nil => intro l; simp [List.isPrefixOf]
  | cons a p ih =>
    intro l
    cases l with
    | nil => simp [List.isPrefixOf]
    | cons b l =>
      simp only [List.isPrefixOf, List.length_cons, List.take_succ_cons,
        Bool.and_eq_true, beq_iff_eq, List.cons.injEq, ih l]
      constructor
      · rintro ⟨h1, h2⟩; exact ⟨h1.symm, h2⟩
      · rintro ⟨h1, h2⟩; exact ⟨h1.symm, h2⟩

theorem occAt_iff_take (pat l : Line) (i : Nat) :
    occAt pat l i = true ↔ (l.drop i).take pat.length = pat := by
  unfold occAt
  exact isPrefixOf_iff_take pat (l.drop i)

theorem occAt_le_length (pat l : Line) (i : Nat) (hp : pat ≠ [])
    (h : occAt pat l i = true) : i + pat.length ≤ l.length := by
  rw [occAt_iff_take] at h
  have hlen : ((l.drop i).take pat.length).length = pat.length := by rw [h]
  simp only [List.length_take, List.length_drop] at hlen
  have h1 : pat.length ≤ l.length - i := by omega
  have h2 : 0 < pat.length := List.length_pos.mpr hp
  -- if `i > l.length` then `l.length - i = 0`, contradicting `0 < pat.length`
  omega

theorem mem_occList_iff (pat l : Line) (q : Nat) (hp : pat ≠ []) :
    q ∈ occList pat l ↔ occAt pat l q = true := by
  simp only [occList, List.mem_filter, List.mem_range]
  constructor
  · rintro ⟨_, h⟩; exact h
  · intro h
    refine ⟨?_, h⟩
    have := occAt_le_length pat l q hp h
    have := List.length_pos.mpr hp
    omega

theorem occAt_getElem (pat l : Line) (i : Nat) (h : occAt pat l i = true)
    (s : Nat) (hs : s < pat.length) (hl : i + s < l.length) :
    l[i + s] = pat[s] := by
  rw [occAt_iff_take] at h
  have hts : s < ((l.drop i).take pat.length).length := by rw [h]; exact hs
  have e1 : ((l.drop i).take pat.length)[s] = pat[s] :=
    List.getElem_of_eq h hts
  rw [← e1, List.getElem_take, List.getElem_drop]

/-! ## head and last of filtered ranges -/

theorem filter_range_eq_nil (p : Nat → Bool) (n : Nat)
    (h : ∀ y, y < n → p y = false) : (List.range n).filter p = [] := by
  apply List.filter_eq_nil_iff.mpr
  intro a ha
  simp [h a (List.mem_range.mp ha)]

theorem range_split (x n : Nat) (h : x ≤ n) :
    List.range n = List.range x ++ List.range' x (n - x) := by
  rw [List.range_eq_range', List.range_eq_range']
  have h0 := List.range'_append 0 x (n - x) 1
  simp only [Nat.one_mul, Nat.zero_add] at h0
  have hx2 : n - x + x = n := by omega
  rw [hx2] at h0
  exact h0.symm

theorem head?_filter_range (p : Nat → Bool) (n x : Nat) (hx : x < n)
    (hpx : p x = true) (hmin : ∀ y, y < x → p y = false) :
    ((List.range n).filter p).head? = some x := by
  rw [range_split x n (Nat.le_of_lt hx), List.filter_append,
    filter_range_eq_nil p x hmin, List.nil_append]
  have hsucc : n - x = (n - x - 1) + 1 := by omega
  rw [hsucc, List.range'_succ, List.filter_cons, if_pos hpx]
  rfl

theorem getLast?_filter_range (p : Nat → Bool) (n x : Nat) (hx : x < n)
    (hpx : p x = true) (hmax : ∀ y, x < y → p y = false) :
    ((List.range n).filter p).getLast? = some x := by
  rw [range_split (x + 1) n hx, List.filter_append]
  have h2 : (List.range' (x + 1) (n - (x + 1))).filter p = [] := by
    apply List.filter_eq_nil_iff.mpr
    intro a ha
    have := List.mem_range'_1.mp ha
    simp [hmax a (by omega)]
  rw [h2, List.append_nil, List.range_succ, List.filter_append,
    List.filter_cons, if_pos hpx]
  simp [List.getLast?_append]

theorem mem_le_of_getLast? (l : List Nat) (hl : l.Pairwise (· < ·)) (y x : Nat)
    (hy : y ∈ l) (hx : l.getLast? = some x) : y ≤ x := by
  induction l with
  | nil => cases hy
  | cons a t ih =>
    cases t with
    | nil =>
      simp only [List.getLast?_singleton, Option.some.injEq] at hx
      simp only [List.mem_singleton] at hy
      omega
    | cons b t2 =>
      rw [List.getLast?_cons_cons] at hx
      have hpw := List.pairwise_cons.mp hl
      rcases List.mem_cons.mp hy with h | h
      · subst h
        have hxmem : x ∈ b :: t2 :=
          List.mem_of_mem_getLast? (by rw [hx]; rfl)
        exact Nat.le_of_lt (hpw.1 x hxmem)
      · exact ih hpw.2 h hx

theorem head?_le_mem (l : List Nat) (hl : l.Pairwise (· < ·)) (y x : Nat)
    (hy : y ∈ l) (hx : l.head? = some x) : x ≤ y := by
  cases l with
  | nil => cases hy
  | cons a t =>
    simp only [List.head?_cons, Option.some.injEq] at hx
    subst hx
    have hpw := List.pairwise_cons.mp hl
    rcases List.mem_cons.mp hy with h | h
    · omega
    · exact Nat.le_of_lt (hpw.1 y h)

theorem occList_pairwise (pat l : Line) : (occList pat l).Pairwise (· < ·) :=
  List.Pairwise.sublist (List.filter_sublist _) (List.pairwise_lt_range _)

theorem le_lastOcc (pat l : Line) (q E : Nat) (hp : pat ≠ [])
    (hq : occAt pat l q = true) (hE : lastOcc pat l = some E) : q ≤ E :=
  mem_le_of_getLast? _ (occList_pairwise pat l) q E
    ((mem_occList_iff pat l q hp).mpr hq) hE

theorem firstOcc_le (pat l : Line) (q p : Nat) (hpne : pat ≠ [])
    (hq : occAt pat l q = true) (hp : firstOcc pat l = some p) : p ≤ q :=
  head?_le_mem _ (occList_pairwise pat l) q p
    ((mem_occList_iff pat l q hpne).mpr hq) hp

/-! ## Driver model

`main` iterates over the static file list; for each file it checks existence
(`os.path.exists`), runs `process_file` (which returns `True` on success and
`False` when an exception was caught), and tallies.  We abstract the
environment's answer for each file into two booleans: whether the file is
present, and whether processing it succeeds.  The control flow (counting,
continuing after failures, and the final `return 0 if fail_count == 0 else 1`)
is translated from the source. -/

structure FileStatus where
  present : Bool
  ok : Bool
deriving Repr, DecidableEq

/-- One step of `main`'s loop on the (success, failure) counters. -/
def tallyStep (acc : Nat × Nat) (f : FileStatus) : Nat × Nat :=
  if f.present then
    if f.ok then (acc.1 + 1, acc.2) else (acc.1, acc.2 + 1)
  else (acc.1, acc.2 + 1)

/-- The (success_count, fail_count) pair after `main`'s loop. -/
def tally (files : List FileStatus) : Nat × Nat :=
  files.foldl tallyStep (0, 0)

/-- The value `main` returns: `0 if fail_count == 0 else 1`. -/
def mainExit (files : List FileStatus) : Nat :=
  if (tally files).2 = 0 then 0 else 1

/-! ## Lemmas about the second pass -/

theorem fix_function_spacing_nil : fix_function_spacing [] = [] := rfl

theorem fix_function_spacing_single (a : Line) : fix_function_spacing [a] = [a] := rfl

theorem fix_function_spacing_cons_cons (a b : Line) (rest : List Line) :
    fix_function_spacing (a :: b :: rest) =
      if funcIns a b then a :: [] :: fix_function_spacing (b :: rest)
      else a :: fix_function_spacing (b :: rest) := by
  by_cases h : funcIns a b <;> simp [fix_function_spacing, h]

theorem funcIns_iff (a b : Line) :
    funcIns a b = true ↔ strip a = ['}'] ∧ (strip b).take 3 = "/**".data := by
  unfold funcIns
  simp only [Bool.and_eq_true, beq_iff_eq, Bool.not_eq_true']
  constructor
  · rintro ⟨⟨h1, h2⟩, _⟩
    refine ⟨h1, ?_⟩
    have := (isPrefixOf_iff_take _ _).mp h2
    simpa using this
  · rintro ⟨h1, h2⟩
    refine ⟨⟨h1, ?_⟩, ?_⟩
    · rw [isPrefixOf_iff_take]
      simpa using h2
    · cases hsb : strip b with
      | nil => rw [hsb] at h2; simp at h2
      | cons c t => simp

/-! ## Length lemmas (the passes never delete lines) -/

theorem length_fix_comment_separators (lines : List Line) :
    (fix_comment_separators lines).length = lines.length := by
  simp [fix_comment_separators]

theorem length_fix_function_spacing (lines : List Line) :
    lines.length ≤ (fix_function_spacing lines).length := by
  induction lines with
  | nil => simp [fix_function_spacing]
  | cons a rest ih =>
    cases rest with
    | nil => simp [fix_function_spacing]
    | cons b r =>
      rw [fix_function_spacing_cons_cons]
      simp only [List.length_cons] at ih ⊢
      by_cases h : funcIns a b <;> simp only [h, if_true, if_false,
        Bool.false_eq_true, List.length_cons] <;> omega

theorem length_flatten_ge (L : List (List Line)) (h : ∀ x ∈ L, 1 ≤ x.length) :
    L.length ≤ L.flatten.length := by
  induction L with
  | nil => simp
  | cons x t ih =>
    simp only [List.flatten_cons, List.length_append, List.length_cons]
    have h1 := h x (List.mem_cons_self x t)
    have h2 := ih (fun y hy => h y (List.mem_cons_of_mem x hy))
    omega

theorem length_retSeg (lines : List Line) (i : Nat) : 1 ≤ (retSeg lines i).length := by
  unfold retSeg
  by_cases h : retInsert lines i <;> simp [h]

theorem length_fix_return_spacing (lines : List Line) :
    lines.length ≤ (fix_return_spacing lines).length := by
  unfold fix_return_spacing
  have h := length_flatten_ge ((List.range lines.length).map (retSeg lines)) ?_
  · simpa using h
  · intro x hx
    rcases List.mem_map.mp hx with ⟨i, _, rfl⟩
    exact length_retSeg lines i

/-! ## Lemmas about the driver -/

/-- Whether `main` counts a file as failed: missing, or processing failed. -/
def fileFails (f : FileStatus) : Bool := !f.present || !f.ok

theorem tally_go (files : List FileStatus) : ∀ s f : Nat,
    files.foldl tallyStep (s, f) =
      (s + (files.filter (fun g => !fileFails g)).length,
       f + (files.filter fileFails).length) := by
  induction files with
  | nil => intro s f; simp
  | cons a t ih =>
    intro s f
    simp only [List.foldl_cons, List.filter_cons]
    cases hp : a.present <;> cases ho : a.ok <;>
      simp [tallyStep, fileFails, hp, ho, ih] <;> omega

theorem tally_eq (files : List FileStatus) :
    tally files = ((files.filter (fun g => !fileFails g)).length,
      (files.filter fileFails).length) := by
  unfold tally
  simpa using tally_go files 0 0

theorem isEmpty_eq_false_iff_ne (l : Line) : l.isEmpty = false ↔ l ≠ [] := by
  cases l <;> simp

theorem filter_not_partition (p : FileStatus → Bool) (l : List FileStatus) :
    (l.filter (fun g => !p g)).length + (l.filter p).length = l.length := by
  induction l with
  | nil => simp
  | cons a t ih =>
    simp only [List.filter_cons]
    cases h : p a <;> simp [h] <;> omega

/-! ## Characterization of the backward brace scan -/

theorem braceScanL_iff (L : List Line) :
    braceScanL L = true ↔
      ∃ j, ∃ h : j < L.length, strip L[j] = ['{'] ∧
        ∀ k, ∀ hk : k < L.length, k < j →
          strip L[k] ≠ ['}'] ∧ strip L[k] ≠ ['{'] := by
  induction L with
  | nil => simp [braceScanL]
  | cons l ls ih =>
    unfold braceScanL
    by_cases h1 : strip l == ['}']
    · simp only [h1, if_true]
      constructor
      · intro h; cases h
      · rintro ⟨j, hj, hcurl, hmin⟩
        cases j with
        | zero =>
          rw [beq_iff_eq] at h1
          simp only [List.getElem_cons_zero] at hcurl
          rw [h1] at hcurl
          simp at hcurl
        | succ j2 =>
          have := (hmin 0 (by simp) (Nat.succ_pos j2)).1
          simp only [List.getElem_cons_zero] at this
          exact (this (beq_iff_eq.mp h1)).elim
    · by_cases h2 : strip l == ['{']
      · simp only [h1, h2, if_true, if_false, Bool.false_eq_true]
        constructor
        · intro _
          exact ⟨0, by simp, by simpa using beq_iff_eq.mp h2, by omega⟩
        · intro _; trivial
      · simp only [h1, h2, if_false, Bool.false_eq_true, ih]
        constructor
        · rintro ⟨j, hj, hcurl, hmin⟩
          refine ⟨j + 1, by simpa using Nat.succ_lt_succ hj, by simpa using hcurl, ?_⟩
          intro k hk hkj
          cases k with
          | zero =>
            constructor <;> intro hc <;> simp only [List.getElem_cons_zero] at hc
            · exact h1 (beq_iff_eq.mpr hc)
            · exact h2 (beq_iff_eq.mpr hc)
          | succ k2 =>
            have := hmin k2 (by simpa using Nat.lt_of_succ_lt_succ hk)
              (Nat.lt_of_succ_lt_succ hkj)
            simpa using this
        · rintro ⟨j, hj, hcurl, hmin⟩
          cases j with
          | zero =>
            simp only [List.getElem_cons_zero] at hcurl
            exact absurd (beq_iff_eq.mpr hcurl) h2
          | succ j2 =>
            refine ⟨j2, by simpa using Nat.lt_of_succ_lt_succ hj, by simpa using hcurl, ?_⟩
            intro k hk hkj
            have := hmin (k + 1) (by simpa using Nat.succ_lt_succ hk)
              (Nat.succ_lt_succ hkj)
            simpa using this

theorem windowIdxs_length (i : Nat) :
    (windowIdxs i).length = i - max 1 (i - 4) := by
  simp [windowIdxs]

theorem windowIdxs_getElem (i t : Nat) (ht : t < (windowIdxs i).length) :
    (windowIdxs i)[t] = i - 1 - t := by
  rw [windowIdxs_length] at ht
  unfold windowIdxs
  rw [List.getElem_reverse, List.getElem_range']
  simp only [List.length_range']
  omega

theorem windowIdxs_pos (i : Nat) : ∀ j ∈ windowIdxs i, 1 ≤ j := by
  intro j hj
  unfold windowIdxs at hj
  rw [List.mem_reverse] at hj
  have := List.mem_range'_1.mp hj
  omega

/-- The `in_function` flag, characterized: some line in the scanned window
(line indices `max 1 (i - 4) … i - 1`) strips to `{`, and no line nearer to
the return strips to a lone brace. -/
theorem inFunction_iff (lines : List Line) (i : Nat) :
    inFunction lines i = true ↔
      ∃ j, max 1 (i - 4) ≤ j ∧ j < i ∧ strip (lines.getD j []) = ['{'] ∧
        ∀ k, j < k → k < i →
          strip (lines.getD k []) ≠ ['}'] ∧ strip (lines.getD k []) ≠ ['{'] := by
  unfold inFunction
  rw [braceScanL_iff]
  have hlen : ((windowIdxs i).map (fun j => lines.getD j [])).length
      = i - max 1 (i - 4) := by
    rw [List.length_map, windowIdxs_length]
  constructor
  · rintro ⟨t, ht, hcurl, hmin⟩
    rw [hlen] at ht
    refine ⟨i - 1 - t, by omega, by omega, ?_, ?_⟩
    · have := hcurl
      rw [List.getElem_map, windowIdxs_getElem] at this
      exact this
    · intro k hk1 hk2
      have htk : i - 1 - k < ((windowIdxs i).map (fun j => lines.getD j [])).length := by
        rw [hlen]; omega
      have := hmin (i - 1 - k) htk (by omega)
      rw [List.getElem_map, windowIdxs_getElem] at this
      have hik : i - 1 - (i - 1 - k) = k := by omega
      rw [hik] at this
      exact this
  · rintro ⟨j, hj1, hj2, hcurl, hmin⟩
    have hjlen : i - 1 - j < ((windowIdxs i).map (fun j => lines.getD j [])).length := by
      rw [hlen]; omega
    refine ⟨i - 1 - j, hjlen, ?_, ?_⟩
    · rw [List.getElem_map, windowIdxs_getElem]
      have hij : i - 1 - (i - 1 - j) = j := by omega
      rw [hij]
      exact hcurl
    · intro t ht htj
      rw [List.getElem_map, windowIdxs_getElem]
      rw [hlen] at ht
      exact hmin (i - 1 - t) (by omega) (by omega)

/-! ## Claim C3 -/

/-- The scan that claim C3 describes: the preceding lines backward, up to 4
lines, with no exclusion of the first line of the file (line indices
`i - 4 … i - 1`). -/
def claimScanIdxs (i : Nat) : List Nat :=
  (List.range' (i - 4) (i - (i - 4))).reverse

/-- The in-function classification described verbatim by claim C3: scan the
up-to-4 preceding lines backward and report whether a trimmed `{` is
encountered before a trimmed `}`. -/
def claimInFunction (lines : List Line) (i : Nat) : Bool :=
  braceScanL ((claimScanIdxs i).map (fun j => lines.getD j []))

/-- Claim C3 is false as stated: on `{ / x / return 1; / y` the claim's
backward scan (up to 4 preceding lines) sees the `{` on the first line of the
file and classifies the return as in-function, every other insertion
condition holds (previous line non-blank, next line not `}`), so the claim
predicts a blank-line insertion; but the code's scan `range(i-1, max(0,i-5),
-1)` never visits index 0, classifies the return as not-in-function, and
`fix_return_spacing` leaves the input unchanged. -/
theorem claim_c3_counterexample :
    claimInFunction ["\x7b".data, "x".data, "return 1;".data, "y".data] 2 = true ∧
    inFunction ["\x7b".data, "x".data, "return 1;".data, "y".data] 2 = false ∧
    retQual (strip (["\x7b".data, "x".data, "return 1;".data, "y".data].getD 2 [])) = true ∧
    strip (["\x7b".data, "x".data, "return 1;".data, "y".data].getD 1 []) ≠ [] ∧
    strip (["\x7b".data, "x".data, "return 1;".data, "y".data].getD 3 []) ≠ ['}'] ∧
    fix_return_spacing ["\x7b".data, "x".data, "return 1;".data, "y".data] =
      ["\x7b".data, "x".data, "return 1;".data, "y".data] := by
  refine ⟨by decide, by decide, by decide, by decide, by decide, by decide⟩

/-- Claim C3, amended: the backward scan covers at most the 4 preceding
lines but never the first line of the file (indices `max 1 (i-4) … i-1`); a
return is classified in-function iff a line in that window strips to `{` with
no nearer line stripping to `{` or `}`; and on `foo(); / return 1; / bar();`
no blank line is inserted. -/
theorem claim_c3_amended (lines : List Line) (i : Nat) :
    (inFunction lines i = true ↔
      ∃ j, max 1 (i - 4) ≤ j ∧ j < i ∧ strip (lines.getD j []) = ['{'] ∧
        ∀ k, j < k → k < i →
          strip (lines.getD k []) ≠ ['}'] ∧ strip (lines.getD k []) ≠ ['{']) ∧
    fix_return_spacing ["foo();".data, "return 1;".data, "bar();".data] =
      ["foo();".data, "return 1;".data, "bar();".data] :=
  ⟨inFunction_iff lines i, by decide⟩

/-! ## Claim C4 -/

/-- Claim C4: a blank line is inserted immediately before line `i` iff the
line qualifies as a return statement, a previous line exists and is
non-blank, the backward heuristic classifies the return as in-function, and
the immediately following line does not trim to `}` (a return on the last
line has no following line, and the trailing-return test then fails).
Moreover scenario 2 (`if (x) { / return 0; / }`) is unchanged, a return with
a blank line already before it is unchanged, and a qualifying in-function
return gets exactly one blank line. -/
theorem claim_c4_return_insertion (lines : List Line) (i : Nat) :
    (retInsert lines i = true ↔
      (retQual (strip (lines.getD i [])) = true ∧ 0 < i ∧
       strip (lines.getD (i - 1) []) ≠ [] ∧ inFunction lines i = true ∧
       ¬(i + 1 < lines.length ∧ strip (lines.getD (i + 1) []) = ['}']))) ∧
    fix_return_spacing ["if (x) \x7b".data, "    return 0;".data, "\x7d".data] =
      ["if (x) \x7b".data, "    return 0;".data, "\x7d".data] ∧
    fix_return_spacing ["\x7b".data, [], "return 1;".data, "x".data] =
      ["\x7b".data, [], "return 1;".data, "x".data] ∧
    fix_return_spacing ["a".data, "\x7b".data, "b".data, "return 1;".data, "c".data] =
      ["a".data, "\x7b".data, "b".data, [], "return 1;".data, "c".data] := by
  refine ⟨?_, by decide, by decide, by decide⟩
  unfold retInsert
  simp only [Bool.and_eq_true, Bool.not_eq_true', Bool.and_eq_false_iff,
    decide_eq_true_iff, decide_eq_false_iff_not, Bool.not_eq_true,
    isEmpty_eq_false_iff_ne, beq_eq_false_iff_ne, ne_eq, beq_iff_eq]
  constructor
  · rintro ⟨⟨⟨hq, hprev⟩, hin⟩, hlast⟩
    refine ⟨hq, hprev.1, hprev.2, hin, ?_⟩
    rintro ⟨hl1, hl2⟩
    rcases hlast with h | h
    · simp [hl1] at h
    · exact h hl2
  · rintro ⟨hq, hpos, hprev, hin, hlast⟩
    refine ⟨⟨⟨hq, hpos, hprev⟩, hin⟩, ?_⟩
    by_cases hl : i + 1 < lines.length
    · right; intro hc; exact hlast ⟨hl, hc⟩
    · left; simpa using hl

/-! ## Claim C5 -/

/-- Claim C5: `fix_function_spacing` inserts exactly one blank line after a
line trimming to exactly `}` when the next line's trimmed form begins with
`/**`, and otherwise copies the line (in particular when blank lines already
separate the two lines, the successor trims to the empty line, so nothing is
inserted; a final `}` has no successor and gets nothing); scenario 1 turns
`} / **doc**` into `} / blank / **doc**`. -/
theorem claim_c5_function_spacing (a b : Line) (rest : List Line) :
    (fix_function_spacing (a :: b :: rest) =
      if funcIns a b then a :: [] :: fix_function_spacing (b :: rest)
      else a :: fix_function_spacing (b :: rest)) ∧
    (funcIns a b = true ↔ strip a = ['}'] ∧ (strip b).take 3 = "/**".data) ∧
    fix_function_spacing [a] = [a] ∧
    fix_function_spacing ["\x7d".data, "/** doc */".data] =
      ["\x7d".data, [], "/** doc */".data] :=
  ⟨fix_function_spacing_cons_cons a b rest, funcIns_iff a b,
    fix_function_spacing_single a, by decide⟩

/-! ## Claim C6 -/

/-- Claim C6: every pass, and the composition of the three passes, produces
at least as many lines as its input; `fix_comment_separators` preserves the
count exactly. -/
theorem claim_c6_line_count (lines : List Line) :
    lines.length ≤ (fix_comment_separators lines).length ∧
    lines.length ≤ (fix_function_spacing lines).length ∧
    lines.length ≤ (fix_return_spacing lines).length ∧
    lines.length ≤ (processContent lines).length := by
  refine ⟨Nat.le_of_eq (length_fix_comment_separators lines).symm,
    length_fix_function_spacing lines, length_fix_return_spacing lines, ?_⟩
  unfold processContent
  calc lines.length
      = (fix_comment_separators lines).length :=
        (length_fix_comment_separators lines).symm
    _ ≤ (fix_function_spacing (fix_comment_separators lines)).length :=
        length_fix_function_spacing _
    _ ≤ (fix_return_spacing (fix_function_spacing
          (fix_comment_separators lines))).length :=
        length_fix_return_spacing _

/-! ## Claim C7 -/

/-- Claim C7: `main` returns a non-zero status iff some file in the list is
missing or failed to process; both outcomes are tallied as failures; and
every file is tallied (success and failure counts sum to the number of
files, so a failure never aborts the batch). -/
theorem claim_c7_exit_status (files : List FileStatus) :
    (mainExit files ≠ 0 ↔ ∃ f ∈ files, f.present = false ∨ f.ok = false) ∧
    (tally files).1 + (tally files).2 = files.length := by
  constructor
  · unfold mainExit
    rw [tally_eq]
    by_cases hz : (files.filter fileFails).length = 0
    · rw [if_pos hz]
      constructor
      · intro h; exact absurd rfl h
      · rintro ⟨f, hf, hfail⟩
        exfalso
        have hmem : f ∈ files.filter fileFails := by
          rw [List.mem_filter]
          refine ⟨hf, ?_⟩
          unfold fileFails
          rcases hfail with h | h <;> simp [h]
        rw [List.length_eq_zero] at hz
        rw [hz] at hmem
        cases hmem
    · simp only [if_neg hz, ne_eq, one_ne_zero, not_false_eq_true, true_iff]
      have : files.filter fileFails ≠ [] := by
        intro hc; rw [hc] at hz; exact hz rfl
      rcases List.exists_mem_of_ne_nil _ this with ⟨f, hf⟩
      have hmf := List.mem_filter.mp hf
      refine ⟨f, hmf.1, ?_⟩
      have hff := hmf.2
      unfold fileFails at hff
      rcases Bool.or_eq_true_iff.mp hff with h1 | h1
      · left; simpa using h1
      · right; simpa using h1
  · rw [tally_eq]
    exact filter_not_partition fileFails files

/-! ## Claim C9 -/

/-- Claim C9: the backward scan never visits the first line of the file;
consequently, when the enclosing `{` sits on line 0 and a qualifying return
occurs within the following 4 lines (no nearer line supplying a `{`), the
return is classified not-in-function and no blank line is inserted. -/
theorem claim_c9_scan_excludes_first_line (lines : List Line) (i : Nat)
    (h0 : strip (lines.getD 0 []) = ['{'])
    (h1 : 1 ≤ i) (h2 : i ≤ 4)
    (h3 : retQual (strip (lines.getD i [])) = true)
    (h4 : ∀ j ∈ List.range' 1 (i - 1), strip (lines.getD j []) ≠ ['{']) :
    (∀ m : Nat, ∀ j ∈ windowIdxs m, 1 ≤ j) ∧
    inFunction lines i = false ∧ retInsert lines i = false := by
  have hwin : ∀ m : Nat, ∀ j ∈ windowIdxs m, 1 ≤ j := fun m => windowIdxs_pos m
  have hin : inFunction lines i = false := by
    rw [← Bool.not_eq_true, inFunction_iff]
    rintro ⟨j, hj1, hj2, hcurl, -⟩
    have hj1' : 1 ≤ j := le_trans (le_max_left 1 (i - 4)) hj1
    exact h4 j (List.mem_range'_1.mpr ⟨hj1', by omega⟩) hcurl
  refine ⟨hwin, hin, ?_⟩
  unfold retInsert
  rw [hin]
  simp

/-! ## Claim C10 -/

/-- Claim C10: any trimmed line starting with `return`, whose seventh
character is whitespace and which contains `;` somewhere after it, qualifies
as a return statement (arbitrary text after the `;` included), and such a
line can receive a blank line: `return 0; bar();` inside a function body gets
one inserted before it. -/
theorem claim_c10_return_pattern (s : Line)
    (h1 : s.take 6 = "return".data)
    (h2 : ∃ c t, s.drop 6 = c :: t ∧ pyIsSpace c = true ∧ ';' ∈ t) :
    retQual s = true ∧
    fix_return_spacing
        ["a".data, "\x7b".data, "x();".data, "return 0; bar();".data, "y();".data] =
      ["a".data, "\x7b".data, "x();".data, [], "return 0; bar();".data, "y();".data] := by
  refine ⟨?_, by decide⟩
  unfold retQual
  rw [Bool.or_eq_true]
  right
  rw [Bool.and_eq_true]
  constructor
  · rw [isPrefixOf_iff_take]
    exact h1
  · rcases h2 with ⟨c, t, hdrop, hsp, hmem⟩
    rw [hdrop]
    simp only [hsp, Bool.true_and]
    simp [List.elem_iff]
    exact hmem

/-! ## Claims C2 and C8: the banner substitution on a one-line comment -/

theorem firstOcc_zero (pat l : Line) (h : occAt pat l 0 = true) :
    firstOcc pat l = some 0 := by
  unfold firstOcc occList
  apply head?_filter_range
  · omega
  · exact h
  · intro y hy
    exact absurd hy (Nat.not_lt_zero y)

theorem lastOcc_end (pat l : Line) (hp : pat ≠ [])
    (h : occAt pat l (l.length - pat.length) = true) :
    lastOcc pat l = some (l.length - pat.length) := by
  unfold lastOcc occList
  apply getLast?_filter_range
  · omega
  · exact h
  · intro y hy
    by_contra hc
    rw [Bool.not_eq_false] at hc
    have h1 := occAt_le_length pat l y hp hc
    have h2 := List.length_pos.mpr hp
    omega

/-- Applying one substitution rule to a one-line comment of the form
`/* … kw … */` replaces the whole line by the banner, whatever surrounds the
keyword inside the comment. -/
theorem subBanner_wrap (kw B a b : Line) (hkw : kw ≠ []) :
    subBanner kw B (slashStar ++ a ++ kw ++ b ++ starSlash) = B := by
  set l := slashStar ++ a ++ kw ++ b ++ starSlash with hl
  have hlen : l.length = 2 + a.length + kw.length + b.length + 2 := by
    simp [hl, slashStar, starSlash]
    omega
  have hocc0 : occAt slashStar l 0 = true := by
    rw [occAt_iff_take]
    simp [hl, slashStar, List.append_assoc]
  have hax : (slashStar ++ a).length = 2 + a.length := by simp [slashStar]; omega
  have hoccq : occAt kw l (2 + a.length) = true := by
    rw [occAt_iff_take]
    have h1 : l = (slashStar ++ a) ++ (kw ++ (b ++ starSlash)) := by
      simp [hl, List.append_assoc]
    rw [h1, ← hax, List.drop_left]
    exact List.take_left kw (b ++ starSlash)
  have hoccr : occAt starSlash l (l.length - 2) = true := by
    rw [occAt_iff_take]
    have h1 : l = (slashStar ++ a ++ kw ++ b) ++ starSlash := by
      simp [hl, List.append_assoc]
    have h2 : (slashStar ++ a ++ kw ++ b).length = l.length - 2 := by
      simp [slashStar, hlen]
      omega
    rw [h1, ← h2, List.drop_left]
    rfl
  have hfirst : firstOcc slashStar l = some 0 := firstOcc_zero _ _ hocc0
  have hlast : lastOcc starSlash l = some (l.length - 2) := by
    have := lastOcc_end starSlash l (by simp [starSlash]) ?_
    · simpa [starSlash] using this
    · simpa [starSlash] using hoccr
  have hcond : matchCond kw l 0 = true := by
    unfold matchCond
    rw [List.any_eq_true]
    refine ⟨2 + a.length, (mem_occList_iff kw l _ hkw).mpr hoccq, ?_⟩
    rw [Bool.and_eq_true]
    constructor
    · simp
    · rw [List.any_eq_true]
      refine ⟨l.length - 2,
        (mem_occList_iff starSlash l _ (by simp [starSlash])).mpr hoccr, ?_⟩
      rw [decide_eq_true_eq]
      omega
  rw [subBanner_pos kw B l 0 hfirst hcond, hlast]
  simp only [Option.getD_some, List.take_zero, List.nil_append]
  have hdrop : l.length - 2 + 2 = l.length := by omega
  rw [hdrop, List.drop_length, List.append_nil]

/-- The full `commLine` on a one-line comment containing the (single-spaced)
header-includes keyword: rule 1 fires and produces `banner1`, and the eight
remaining rules leave `banner1` unchanged. -/
theorem commLine_wrap_kw1 (a b : Line) :
    commLine (slashStar ++ a ++ kw1 ++ b ++ starSlash) = banner1 := by
  have h1 : subBanner kw1 banner1 (slashStar ++ a ++ kw1 ++ b ++ starSlash) = banner1 :=
    subBanner_wrap kw1 banner1 a b (by decide)
  show List.foldl (fun acc r => subBanner r.1 r.2 acc)
      (slashStar ++ a ++ kw1 ++ b ++ starSlash) rules = banner1
  rw [rules, List.foldl_cons, h1]
  decide

/-- Claim C2 is false as stated: a one-line comment containing the
header-includes keyword with no internal spaces (`/*头文件*/`) is not
replaced (the pattern's keyword is the single-spaced `头 文 件`), and the
same holds with two spaces between the characters; neither output equals the
canonical banner. -/
theorem claim_c2_counterexample :
    fix_comment_separators ["/*头文件*/".data] = ["/*头文件*/".data] ∧
    fix_comment_separators ["/*头  文  件*/".data] = ["/*头  文  件*/".data] ∧
    "/*头文件*/".data ≠ banner1 ∧ "/*头  文  件*/".data ≠ banner1 := by
  refine ⟨by decide, by decide, by decide, by decide⟩

/-- Claim C2, amended: the header-includes rule matches the keyword only in
its exact single-spaced form `头 文 件`; any one-line comment containing that
form (with arbitrary surrounding text inside the comment) becomes the
canonical banner, while the unspaced and double-spaced variants are left
unchanged. -/
theorem claim_c2_amended (a b : Line) :
    fix_comment_separators [slashStar ++ a ++ kw1 ++ b ++ starSlash] = [banner1] ∧
    fix_comment_separators ["/*头文件*/".data] = ["/*头文件*/".data] ∧
    fix_comment_separators ["/*头  文  件*/".data] = ["/*头  文  件*/".data] := by
  refine ⟨?_, by decide, by decide⟩
  show [commLine (slashStar ++ a ++ kw1 ++ b ++ starSlash)] = [banner1]
  rw [commLine_wrap_kw1]

/-- Claim C8: a one-line comment of the form `/* … 头 文 件 … */` is replaced
by `fix_comment_separators` with exactly the canonical header-includes banner
string, character for character. -/
theorem claim_c8_header_banner (a b : Line) :
    fix_comment_separators [slashStar ++ a ++ kw1 ++ b ++ starSlash] =
      ["/*************************** 头文件包含 ****************************/".data] := by
  show [commLine (slashStar ++ a ++ kw1 ++ b ++ starSlash)] = _
  rw [commLine_wrap_kw1]
  rfl

/-! ## Idempotence of the banner pass

A fired rule replaces the span from the first `/*` to the end of the last
`*/` by its banner.  The produced line has the shape: a prefix with no `/*`
occurrence, the banner, and a suffix with no `*/` occurrence.  On a line of
this shape every rule acts as the identity (a rule whose keyword does not
occur in the embedded banner finds no admissible match; the rule owning the
banner can only re-match exactly the banner span and replaces it by itself),
so at most the first fired rule ever changes a line and `commLine` is
idempotent. -/

/-- Structural facts about a rule's banner: its only `/*` occurrence is at
position 0, its only `*/` occurrence is at its end, and it has at least 4
characters. -/
def goodBanner (B : Line) : Bool :=
  occList slashStar B == [0] && occList starSlash B == [B.length - 2] &&
    decide (4 ≤ B.length)

/-- Structural facts about a rule's keyword: nonempty, and free of `/`
and `*`. -/
def goodKw (kw : Line) : Bool :=
  !kw.isEmpty && kw.all (fun c => !(c == '/') && !(c == '*'))

/-- The decidable facts about the rule table that the stability argument
uses: every keyword and banner is well-formed, and a keyword occurs in a
banner only if that banner is the keyword's own rule's banner. -/
theorem rules_facts : ∀ r ∈ rules, goodKw r.1 = true ∧ goodBanner r.2 = true ∧
    ∀ r2 ∈ rules, occList r.1 r2.2 = [] ∨ r.2 = r2.2 := by decide

theorem goodKw_ne (kw : Line) (h : goodKw kw = true) : kw ≠ [] := by
  unfold goodKw at h
  rw [Bool.and_eq_true] at h
  intro hc
  rw [hc] at h
  simp at h

/-- Unpacked form of `goodBanner`. -/
theorem goodBanner_spec (B : Line) (h : goodBanner B = true) :
    occAt slashStar B 0 = true ∧
    occAt starSlash B (B.length - 2) = true ∧
    (∀ t, occAt slashStar B t = true → t = 0) ∧
    (∀ t, occAt starSlash B t = true → t = B.length - 2) ∧
    4 ≤ B.length := by
  unfold goodBanner at h
  rw [Bool.and_eq_true, Bool.and_eq_true] at h
  obtain ⟨⟨h1, h2⟩, h3⟩ := h
  rw [beq_iff_eq] at h1 h2
  rw [decide_eq_true_eq] at h3
  have hss : (slashStar : Line) ≠ [] := by simp [slashStar]
  have hse : (starSlash : Line) ≠ [] := by simp [starSlash]
  refine ⟨?_, ?_, ?_, ?_, h3⟩
  · have : 0 ∈ occList slashStar B := by rw [h1]; simp
    exact (mem_occList_iff _ _ _ hss).mp this
  · have : B.length - 2 ∈ occList starSlash B := by rw [h2]; simp
    exact (mem_occList_iff _ _ _ hse).mp this
  · intro t ht
    have : t ∈ occList slashStar B := (mem_occList_iff _ _ _ hss).mpr ht
    rw [h1] at this
    simpa using this
  · intro t ht
    have : t ∈ occList starSlash B := (mem_occList_iff _ _ _ hse).mpr ht
    rw [h2] at this
    simpa using this

/-! ### Occurrence transport along append, take and drop -/

theorem occAt_take (pat l : Line) (s t : Nat) (hp : pat ≠ [])
    (h : occAt pat (l.take s) t = true) : occAt pat l t = true := by
  have hlen := occAt_le_length pat (l.take s) t hp h
  rw [occAt_iff_take] at h ⊢
  rw [List.drop_take, List.take_take] at h
  have hmin : min pat.length (s - t) = pat.length := by
    simp only [List.length_take] at hlen
    omega
  rwa [hmin] at h

theorem occAt_drop (pat l : Line) (s t : Nat)
    (h : occAt pat (l.drop s) t = true) : occAt pat l (s + t) = true := by
  rw [occAt_iff_take] at h ⊢
  rwa [List.drop_drop] at h

theorem occAt_append_of_left (pat u v : Line) (t : Nat) (hp : pat ≠ [])
    (h : occAt pat u t = true) : occAt pat (u ++ v) t = true := by
  have hlen := occAt_le_length pat u t hp h
  rw [occAt_iff_take] at h ⊢
  rw [List.drop_append_of_le_length (by omega), List.take_append_of_le_length]
  · exact h
  · simp only [List.length_drop]; omega

theorem occAt_append_inner (pat u v : Line) (t : Nat) (hp : pat ≠ [])
    (ht : t + pat.length ≤ u.length) (h : occAt pat (u ++ v) t = true) :
    occAt pat u t = true := by
  rw [occAt_iff_take] at h ⊢
  rw [List.drop_append_of_le_length (by omega), List.take_append_of_le_length
    (by simp only [List.length_drop]; omega)] at h
  exact h

theorem occAt_append_outer (pat u v : Line) (t : Nat) (ht : u.length ≤ t)
    (h : occAt pat (u ++ v) t = true) : occAt pat v (t - u.length) = true := by
  rw [occAt_iff_take] at h ⊢
  have h2 : (u ++ v).drop t = v.drop (t - u.length) := by
    conv_lhs => rw [show t = u.length + (t - u.length) from by omega]
    rw [List.drop_append]
  rwa [h2] at h

theorem occAt_append_right (pat u v : Line) (t : Nat)
    (h : occAt pat v t = true) : occAt pat (u ++ v) (u.length + t) = true := by
  rw [occAt_iff_take] at h ⊢
  rw [List.drop_append]
  exact h

/-- A line of the shape produced by a fired rule: a prefix with no `/*`
occurrence, the banner, and a suffix with no `*/` occurrence. -/
def ShapeInv (B m : Line) : Prop :=
  ∃ Pf Sf, m = Pf ++ B ++ Sf ∧ (∀ t, occAt slashStar Pf t = false) ∧
    (∀ t, occAt starSlash Sf t = false)

theorem goodBanner_cons (B : Line) (h : goodBanner B = true) :
    B = '/' :: '*' :: B.drop 2 := by
  obtain ⟨h0, -, -, -, -⟩ := goodBanner_spec B h
  rw [occAt_iff_take] at h0
  have h0' : B.take 2 = ['/', '*'] := by simpa [slashStar] using h0
  have happ := List.take_append_drop 2 B
  rw [h0'] at happ
  exact happ.symm

theorem goodBanner_end (B : Line) (h : goodBanner B = true) :
    B.drop (B.length - 2) = ['*', '/'] := by
  obtain ⟨-, hE, -, -, hlen⟩ := goodBanner_spec B h
  rw [occAt_iff_take] at hE
  have hdl : (B.drop (B.length - 2)).length ≤ 2 := by
    simp only [List.length_drop]
    omega
  have hE2 : (B.drop (B.length - 2)).take 2 = starSlash := by
    simpa [starSlash] using hE
  rw [List.take_of_length_le hdl] at hE2
  simpa [starSlash] using hE2

theorem occAt_getD (pat l : Line) (i : Nat) (h : occAt pat l i = true)
    (s : Nat) (hs : s < pat.length) :
    l.getD (i + s) ' ' = pat.getD s ' ' := by
  have hp : pat ≠ [] := by
    intro hc
    rw [hc] at hs
    simp at hs
  have hle := occAt_le_length pat l i hp h
  have hil : i + s < l.length := by omega
  rw [List.getD_eq_getElem l ' ' hil, List.getD_eq_getElem pat ' ' hs]
  exact occAt_getElem pat l i h s hs hil

theorem getD_drop_of_lt (l : Line) (i j : Nat) (h : i + j < l.length) :
    (l.drop i).getD j ' ' = l.getD (i + j) ' ' := by
  rw [List.getD_eq_getElem (l.drop i) ' ' (by simp only [List.length_drop]; omega),
    List.getD_eq_getElem l ' ' h]
  exact List.getElem_drop l

theorem goodBanner_getD_zero (B : Line) (h : goodBanner B = true) :
    B.getD 0 ' ' = '/' := by
  rw [goodBanner_cons B h]
  rfl

theorem goodBanner_getD_last (B : Line) (h : goodBanner B = true) :
    B.getD (B.length - 1) ' ' = '/' := by
  obtain ⟨-, -, -, -, hlen⟩ := goodBanner_spec B h
  have h1 := getD_drop_of_lt B (B.length - 2) 1 (by omega)
  have h2 : B.length - 2 + 1 = B.length - 1 := by omega
  rw [h2] at h1
  rw [← h1, goodBanner_end B h]
  rfl

/-- On a shaped line, the first `/*` sits exactly at the banner's start. -/
theorem shape_firstOcc (B Pf Sf : Line) (hB : goodBanner B = true)
    (hPf : ∀ t, occAt slashStar Pf t = false) :
    firstOcc slashStar (Pf ++ B ++ Sf) = some Pf.length := by
  obtain ⟨h0, -, -, -, hlen⟩ := goodBanner_spec B hB
  unfold firstOcc occList
  apply head?_filter_range
  · simp only [List.length_append]
    omega
  · have h1 : occAt slashStar (B ++ Sf) 0 = true :=
      occAt_append_of_left slashStar B Sf 0 (by simp [slashStar]) h0
    have h2 := occAt_append_right slashStar Pf (B ++ Sf) 0 h1
    rw [← List.append_assoc] at h2
    simpa using h2
  · intro y hy
    by_contra hc
    rw [Bool.not_eq_false] at hc
    by_cases hcase : y + 2 ≤ Pf.length
    · have hinner : occAt slashStar Pf y = true := by
        apply occAt_append_inner slashStar Pf (B ++ Sf) y (by simp [slashStar])
          (by simpa [slashStar] using hcase)
        rwa [List.append_assoc] at hc
      rw [hPf y] at hinner
      cases hinner
    · have hy1 : y + 1 = Pf.length := by omega
      have hchar := occAt_getD slashStar (Pf ++ B ++ Sf) y hc 1 (by simp [slashStar])
      have hself : (Pf ++ B ++ Sf).getD (y + 1) ' ' = '/' := by
        rw [List.append_assoc, hy1,
          List.getD_append_right Pf (B ++ Sf) ' ' Pf.length (le_refl _)]
        have h00 : Pf.length - Pf.length = 0 := by omega
        rw [h00, List.getD_append B Sf ' ' 0 (by omega)]
        exact goodBanner_getD_zero B hB
      rw [hself] at hchar
      have hstar : (slashStar : Line).getD 1 ' ' = '*' := rfl
      rw [hstar] at hchar
      exact absurd hchar (by decide)

/-- On a shaped line, every `*/` occurrence ends by the banner's end. -/
theorem shape_starSlash_le (B Pf Sf : Line) (hB : goodBanner B = true)
    (hSf : ∀ t, occAt starSlash Sf t = false) (r : Nat)
    (hr : occAt starSlash (Pf ++ B ++ Sf) r = true) :
    r ≤ Pf.length + B.length - 2 := by
  obtain ⟨-, -, -, -, hlen⟩ := goodBanner_spec B hB
  by_contra hgt
  push_neg at hgt
  by_cases hcase : Pf.length + B.length ≤ r
  · have houter : occAt starSlash Sf (r - (Pf ++ B).length) = true := by
      apply occAt_append_outer starSlash (Pf ++ B) Sf r
        (by simp only [List.length_append]; omega) hr
    rw [hSf _] at houter
    cases houter
  · have hr1 : r = Pf.length + B.length - 1 := by omega
    have hchar := occAt_getD starSlash (Pf ++ B ++ Sf) r hr 0 (by simp [starSlash])
    have hself : (Pf ++ B ++ Sf).getD (r + 0) ' ' = '/' := by
      have hlt : r + 0 < (Pf ++ B).length := by
        simp only [List.length_append]
        omega
      rw [List.getD_append (Pf ++ B) Sf ' ' (r + 0) hlt,
        List.getD_append_right Pf B ' ' (r + 0) (by omega)]
      have h3 : r + 0 - Pf.length = B.length - 1 := by omega
      rw [h3]
      exact goodBanner_getD_last B hB
    rw [hself] at hchar
    have hstar : (starSlash : Line).getD 0 ' ' = '*' := rfl
    rw [hstar] at hchar
    exact absurd hchar (by decide)

/-- On a shaped line, the last `*/` sits exactly at the banner's end. -/
theorem shape_lastOcc (B Pf Sf : Line) (hB : goodBanner B = true)
    (hSf : ∀ t, occAt starSlash Sf t = false) :
    lastOcc starSlash (Pf ++ B ++ Sf) = some (Pf.length + B.length - 2) := by
  obtain ⟨-, hE, -, -, hlen⟩ := goodBanner_spec B hB
  unfold lastOcc occList
  apply getLast?_filter_range
  · simp only [List.length_append]
    omega
  · have h1 : occAt starSlash (Pf ++ B) (Pf.length + (B.length - 2)) = true :=
      occAt_append_right starSlash Pf B (B.length - 2) hE
    have h2 : occAt starSlash ((Pf ++ B) ++ Sf) (Pf.length + (B.length - 2)) = true :=
      occAt_append_of_left starSlash (Pf ++ B) Sf _ (by simp [starSlash]) h1
    have h3 : Pf.length + (B.length - 2) = Pf.length + B.length - 2 := by omega
    rwa [h3] at h2
  · intro y hy
    by_contra hc
    rw [Bool.not_eq_false] at hc
    have := shape_starSlash_le B Pf Sf hB hSf y hc
    omega

/-- A rule whose keyword does not occur in the embedded banner finds no
admissible match on a shaped line. -/
theorem shape_stable_other (kw B2 B Pf Sf : Line) (hkw : goodKw kw = true)
    (hB : goodBanner B = true) (hnocc : occList kw B = [])
    (hPf : ∀ t, occAt slashStar Pf t = false)
    (hSf : ∀ t, occAt starSlash Sf t = false) :
    subBanner kw B2 (Pf ++ B ++ Sf) = Pf ++ B ++ Sf := by
  apply subBanner_neg kw B2 _ Pf.length (shape_firstOcc B Pf Sf hB hPf)
  rw [Bool.eq_false_iff]
  intro hmc
  unfold matchCond at hmc
  rw [List.any_eq_true] at hmc
  obtain ⟨q, hqmem, hq⟩ := hmc
  rw [Bool.and_eq_true, decide_eq_true_eq, List.any_eq_true] at hq
  obtain ⟨hq2, r, hrmem, hr⟩ := hq
  rw [decide_eq_true_eq] at hr
  have hkwne := goodKw_ne kw hkw
  have hocc_q := (mem_occList_iff _ _ _ hkwne).mp hqmem
  have hocc_r := (mem_occList_iff _ _ _ (by simp [starSlash])).mp hrmem
  have hrle := shape_starSlash_le B Pf Sf hB hSf r hocc_r
  obtain ⟨-, -, -, -, hlen⟩ := goodBanner_spec B hB
  have h1 : occAt kw (B ++ Sf) (q - Pf.length) = true := by
    apply occAt_append_outer kw Pf (B ++ Sf) q (by omega)
    rwa [← List.append_assoc]
  have hinner : occAt kw B (q - Pf.length) = true :=
    occAt_append_inner kw B Sf _ hkwne (by omega) h1
  have hmem : (q - Pf.length) ∈ occList kw B :=
    (mem_occList_iff _ _ _ hkwne).mpr hinner
  rw [hnocc] at hmem
  cases hmem

/-- A rule replacing by the banner already embedded in a shaped line acts as
the identity: if it matches at all, the replaced span is exactly the banner. -/
theorem shape_stable_own (kw B Pf Sf : Line)
    (hB : goodBanner B = true)
    (hPf : ∀ t, occAt slashStar Pf t = false)
    (hSf : ∀ t, occAt starSlash Sf t = false) :
    subBanner kw B (Pf ++ B ++ Sf) = Pf ++ B ++ Sf := by
  have hfirst := shape_firstOcc B Pf Sf hB hPf
  cases hmc : matchCond kw (Pf ++ B ++ Sf) Pf.length with
  | false => exact subBanner_neg _ _ _ _ hfirst hmc
  | true =>
    rw [subBanner_pos _ _ _ _ hfirst hmc, shape_lastOcc B Pf Sf hB hSf]
    simp only [Option.getD_some]
    obtain ⟨-, -, -, -, hlen⟩ := goodBanner_spec B hB
    have h1 : (Pf ++ B ++ Sf).take Pf.length = Pf := by
      rw [List.take_append_of_le_length (by simp only [List.length_append]; omega),
        List.take_append_of_le_length (le_refl _), List.take_length]
    have h2 : Pf.length + B.length - 2 + 2 = (Pf ++ B).length := by
      simp only [List.length_append]
      omega
    have h3 : (Pf ++ B ++ Sf).drop (Pf.length + B.length - 2 + 2) = Sf := by
      rw [h2, List.drop_left]
    rw [h1, h3]

/-- One rule either leaves a line unchanged or produces a shaped line. -/
theorem subBanner_step (kw B l : Line) (hkw : goodKw kw = true) :
    subBanner kw B l = l ∨ ShapeInv B (subBanner kw B l) := by
  cases hfo : firstOcc slashStar l with
  | none => exact Or.inl (subBanner_none _ _ _ hfo)
  | some p0 =>
    cases hmc : matchCond kw l p0 with
    | false => exact Or.inl (subBanner_neg _ _ _ _ hfo hmc)
    | true =>
      right
      have hex : ∃ E, lastOcc starSlash l = some E := by
        unfold matchCond at hmc
        rw [List.any_eq_true] at hmc
        obtain ⟨q, hqmem, hq⟩ := hmc
        rw [Bool.and_eq_true, List.any_eq_true] at hq
        obtain ⟨-, r, hrmem, -⟩ := hq
        unfold lastOcc
        cases hL : (occList starSlash l).getLast? with
        | some E => exact ⟨E, rfl⟩
        | none =>
          rw [List.getLast?_eq_none_iff] at hL
          rw [hL] at hrmem
          cases hrmem
      obtain ⟨E, hE⟩ := hex
      rw [subBanner_pos _ _ _ _ hfo hmc, hE]
      simp only [Option.getD_some]
      refine ⟨l.take p0, l.drop (E + 2), rfl, ?_, ?_⟩
      · intro t
        by_contra hc
        rw [Bool.not_eq_false] at hc
        have hup := occAt_take slashStar l p0 t (by simp [slashStar]) hc
        have hmin := firstOcc_le slashStar l t p0 (by simp [slashStar]) hup hfo
        have hlen := occAt_le_length slashStar (l.take p0) t (by simp [slashStar]) hc
        simp only [List.length_take] at hlen
        rw [show (slashStar : Line).length = 2 from rfl] at hlen
        omega
      · intro t
        by_contra hc
        rw [Bool.not_eq_false] at hc
        have hup := occAt_drop starSlash l (E + 2) t hc
        have := le_lastOcc starSlash l (E + 2 + t) E (by simp [starSlash]) hup hE
        omega

/-- On a shaped line, every rule of the table acts as the identity. -/
theorem shaped_stable_all (B m : Line) (hBr : ∃ r0 ∈ rules, r0.2 = B)
    (hsh : ShapeInv B m) : ∀ r ∈ rules, subBanner r.1 r.2 m = m := by
  obtain ⟨Pf, Sf, rfl, hPf, hSf⟩ := hsh
  obtain ⟨r0, hr0, hr0B⟩ := hBr
  have hBgood : goodBanner B = true := by
    have := (rules_facts r0 hr0).2.1
    rwa [hr0B] at this
  intro r hr
  obtain ⟨hkw, -, hcross⟩ := rules_facts r hr
  rcases hcross r0 hr0 with hocc | hBeq
  · rw [hr0B] at hocc
    exact shape_stable_other r.1 r.2 B Pf Sf hkw hBgood hocc hPf hSf
  · rw [hr0B] at hBeq
    rw [hBeq]
    exact shape_stable_own r.1 B Pf Sf hBgood hPf hSf

theorem foldl_stable_id (rs : List (Line × Line)) (m : Line)
    (h : ∀ r ∈ rs, subBanner r.1 r.2 m = m) :
    rs.foldl (fun acc r => subBanner r.1 r.2 acc) m = m := by
  induction rs with
  | nil => rfl
  | cons r t ih =>
    rw [List.foldl_cons]
    show List.foldl _ (subBanner r.1 r.2 m) t = m
    rw [h r (List.mem_cons_self r t)]
    exact ih (fun x hx => h x (List.mem_cons_of_mem r hx))

theorem foldl_cases (rs : List (Line × Line)) (hsub : ∀ r ∈ rs, r ∈ rules) :
    ∀ m : Line,
    (rs.foldl (fun acc r => subBanner r.1 r.2 acc) m = m ∧
       ∀ r ∈ rs, subBanner r.1 r.2 m = m) ∨
    ∃ B, (∃ r0 ∈ rules, r0.2 = B) ∧
      ShapeInv B (rs.foldl (fun acc r => subBanner r.1 r.2 acc) m) := by
  induction rs with
  | nil =>
    intro m
    left
    exact ⟨rfl, by intro r hr; cases hr⟩
  | cons r t ih =>
    intro m
    have hr : r ∈ rules := hsub r (List.mem_cons_self r t)
    have hkw := (rules_facts r hr).1
    rcases subBanner_step r.1 r.2 m hkw with heq | hsh
    · rw [List.foldl_cons]
      show (List.foldl _ (subBanner r.1 r.2 m) t = m ∧ _) ∨ _
      rw [heq]
      rcases ih (fun x hx => hsub x (List.mem_cons_of_mem r hx)) m with ⟨he, hall⟩ | hright
      · left
        refine ⟨he, ?_⟩
        intro x hx
        rcases List.mem_cons.mp hx with rfl | hx2
        · exact heq
        · exact hall x hx2
      · right
        exact hright
    · right
      refine ⟨r.2, ⟨r, hr, rfl⟩, ?_⟩
      rw [List.foldl_cons]
      show ShapeInv r.2 (List.foldl _ (subBanner r.1 r.2 m) t)
      have hstable := shaped_stable_all r.2 (subBanner r.1 r.2 m) ⟨r, hr, rfl⟩ hsh
      rw [foldl_stable_id t _ (fun x hx => hstable x (hsub x (List.mem_cons_of_mem r hx)))]
      exact hsh

theorem commLine_eq_foldl (l : Line) :
    commLine l = rules.foldl (fun acc r => subBanner r.1 r.2 acc) l := rfl

/-- Every rule acts as the identity on the output of `commLine`. -/
theorem commLine_stable_all (l : Line) :
    ∀ r ∈ rules, subBanner r.1 r.2 (commLine l) = commLine l := by
  rcases foldl_cases rules (fun r h => h) l with ⟨he, hall⟩ | ⟨B, hBr, hsh⟩
  · intro r hr
    rw [commLine_eq_foldl, he]
    exact hall r hr
  · intro r hr
    rw [commLine_eq_foldl]
    exact shaped_stable_all B _ hBr hsh r hr

/-- The banner pass is idempotent on a single line. -/
theorem commLine_idem (l : Line) : commLine (commLine l) = commLine l := by
  conv_lhs => rw [commLine_eq_foldl]
  exact foldl_stable_id rules (commLine l) (commLine_stable_all l)

/-! ## Idempotence of the function-spacing pass

`fix_function_spacing` leaves no adjacent pair `(}, /** …)` in its output,
and on a list with no such pair it is the identity.  The return pass only
inserts blank lines, which can never create such a pair. -/

/-- No adjacent pair of lines triggers a function-spacing insertion. -/
def noTrig (v : List Line) : Prop :=
  List.Chain' (fun x y => funcIns x y = false) v

theorem strip_nil : strip ([] : Line) = [] := rfl

theorem funcIns_blank_right (a : Line) : funcIns a [] = false := by
  unfold funcIns
  rw [strip_nil]
  simp [List.isPrefixOf]

theorem funcIns_blank_left (b : Line) : funcIns [] b = false := by
  unfold funcIns
  rw [strip_nil]
  simp

theorem func_cons_head (b : Line) (r : List Line) :
    ∃ t, fix_function_spacing (b :: r) = b :: t := by
  cases r with
  | nil => exact ⟨[], rfl⟩
  | cons c r2 =>
    rw [fix_function_spacing_cons_cons]
    by_cases h : funcIns b c
    · exact ⟨_, by rw [if_pos h]⟩
    · exact ⟨_, by rw [if_neg h]⟩

/-- The output of the function-spacing pass has no trigger pair. -/
theorem func_noTrig : ∀ v, noTrig (fix_function_spacing v)
  | [] => by simp [noTrig, fix_function_spacing]
  | [a] => by simp [noTrig, fix_function_spacing]
  | a :: b :: r => by
    have ih := func_noTrig (b :: r)
    obtain ⟨t, ht⟩ := func_cons_head b r
    rw [noTrig, fix_function_spacing_cons_cons]
    by_cases h : funcIns a b
    · rw [if_pos h, ht]
      rw [List.chain'_cons, List.chain'_cons]
      refine ⟨funcIns_blank_right a, funcIns_blank_left b, ?_⟩
      rw [← ht]
      exact ih
    · rw [if_neg h, ht]
      rw [List.chain'_cons]
      refine ⟨by simpa using h, ?_⟩
      rw [← ht]
      exact ih

/-- On a trigger-free list the function-spacing pass is the identity. -/
theorem func_id_of_noTrig : ∀ v, noTrig v → fix_function_spacing v = v
  | [] => fun _ => rfl
  | [a] => fun _ => rfl
  | a :: b :: r => fun h => by
    have h1 := (List.chain'_cons.mp h).1
    rw [fix_function_spacing_cons_cons,
      if_neg (by rw [h1]; exact Bool.false_ne_true)]
    rw [func_id_of_noTrig (b :: r) (List.chain'_cons.mp h).2]

/-! ## Positional analysis of the return pass

`fix_return_spacing y` is the concatenation of per-index segments; we index
its elements through the prefix sums of the segment lengths. -/

/-- Length of the output produced for the first `i` input lines. -/
def segSum (y : List Line) (i : Nat) : Nat :=
  (((List.range i).map (retSeg y)).flatten).length

theorem retSeg_length (y : List Line) (i : Nat) :
    (retSeg y i).length = if retInsert y i then 2 else 1 := by
  unfold retSeg
  by_cases h : retInsert y i <;> simp [h]

theorem segSum_zero (y : List Line) : segSum y 0 = 0 := rfl

theorem segSum_succ (y : List Line) (i : Nat) :
    segSum y (i + 1) = segSum y i + (retSeg y i).length := by
  unfold segSum
  rw [List.range_succ, List.map_append, List.flatten_append]
  simp

theorem segSum_succ_ins (y : List Line) (i : Nat) (h : retInsert y i = true) :
    segSum y (i + 1) = segSum y i + 2 := by
  rw [segSum_succ, retSeg_length, if_pos h]

theorem segSum_succ_no (y : List Line) (i : Nat) (h : retInsert y i = false) :
    segSum y (i + 1) = segSum y i + 1 := by
  rw [segSum_succ, retSeg_length, if_neg (by rw [h]; exact Bool.false_ne_true)]

theorem segSum_mono (y : List Line) (i j : Nat) (h : i ≤ j) :
    segSum y i ≤ segSum y j := by
  induction j with
  | zero =>
    have h0 : i = 0 := by omega
    subst h0
    exact le_refl _
  | succ j2 ih =>
    rcases Nat.lt_or_ge i (j2 + 1) with h2 | h2
    · have h3 := ih (by omega)
      have h4 := segSum_succ y j2
      omega
    · have h0 : i = j2 + 1 := by omega
      subst h0
      exact le_refl _

theorem segSum_strict (y : List Line) (i j : Nat) (h : i < j) :
    segSum y i < segSum y j := by
  have h1 : segSum y (i + 1) ≤ segSum y j := segSum_mono y (i + 1) j h
  rw [segSum_succ, retSeg_length] at h1
  by_cases hc : retInsert y i <;> simp [hc] at h1 <;> omega

theorem length_ret_eq_segSum (y : List Line) :
    (fix_return_spacing y).length = segSum y y.length := rfl

theorem ret_drop_segSum (y : List Line) (i : Nat) (h : i ≤ y.length) :
    (fix_return_spacing y).drop (segSum y i) =
      ((List.range' i (y.length - i)).map (retSeg y)).flatten := by
  unfold fix_return_spacing
  rw [range_split i y.length h, List.map_append, List.flatten_append]
  unfold segSum
  rw [List.drop_left]

theorem ret_drop_decomp (y : List Line) (i : Nat) (h : i < y.length) :
    (fix_return_spacing y).drop (segSum y i) =
      retSeg y i ++ ((List.range' (i + 1) (y.length - i - 1)).map (retSeg y)).flatten := by
  rw [ret_drop_segSum y i (Nat.le_of_lt h)]
  have h1 : y.length - i = (y.length - i - 1) + 1 := by omega
  rw [h1]
  rw [List.range'_succ]
  simp

theorem ret_getD_seg (y : List Line) (i o : Nat) (hi : i < y.length)
    (ho : o < (retSeg y i).length) :
    (fix_return_spacing y).getD (segSum y i + o) [] = (retSeg y i).getD o [] := by
  have hd := ret_drop_decomp y i hi
  have h1 : (fix_return_spacing y).getD (segSum y i + o) [] =
      ((fix_return_spacing y).drop (segSum y i)).getD o [] := by
    rw [List.getD_eq_getElem?_getD, List.getD_eq_getElem?_getD, List.getElem?_drop]
  rw [h1, hd, List.getD_append _ _ _ o ho]

/-- Position of original line `i` in the output of the return pass. -/
def retPos (y : List Line) (i : Nat) : Nat :=
  if retInsert y i then segSum y i + 1 else segSum y i

theorem retSeg_getD_line (y : List Line) (i : Nat) :
    (retSeg y i).getD (if retInsert y i then 1 else 0) [] = y.getD i [] := by
  unfold retSeg
  by_cases h : retInsert y i <;> simp [h]

theorem ret_getD_pos (y : List Line) (i : Nat) (hi : i < y.length) :
    (fix_return_spacing y).getD (retPos y i) [] = y.getD i [] := by
  unfold retPos
  by_cases h : retInsert y i
  · rw [if_pos h]
    have := ret_getD_seg y i 1 hi (by rw [retSeg_length, if_pos h]; omega)
    rw [this]
    have h2 := retSeg_getD_line y i
    rwa [if_pos h] at h2
  · rw [if_neg h]
    have h0 : segSum y i = segSum y i + 0 := by omega
    rw [h0]
    have := ret_getD_seg y i 0 hi (by rw [retSeg_length]; by_cases hc : retInsert y i <;> simp [hc])
    rw [this]
    have h2 := retSeg_getD_line y i
    rwa [if_neg h] at h2

theorem ret_getD_blank (y : List Line) (i : Nat) (hi : i < y.length)
    (h : retInsert y i = true) :
    (fix_return_spacing y).getD (segSum y i) [] = [] := by
  have h0 : segSum y i = segSum y i + 0 := by omega
  rw [h0]
  rw [ret_getD_seg y i 0 hi (by rw [retSeg_length, if_pos h]; omega)]
  unfold retSeg
  rw [if_pos h]
  rfl

/-- The element just before original line `i` in the output is original line
`i - 1` when no blank was inserted before line `i`. -/
theorem ret_getD_before (y : List Line) (i : Nat) (hi : i < y.length)
    (h0 : 0 < i) (h : retInsert y i = false) :
    (fix_return_spacing y).getD (segSum y i - 1) [] = y.getD (i - 1) [] := by
  have hi1 : i - 1 < y.length := by omega
  have hstep : segSum y i = segSum y (i - 1) + (retSeg y (i - 1)).length := by
    have := segSum_succ y (i - 1)
    have he : i - 1 + 1 = i := by omega
    rwa [he] at this
  have hlenpos : 1 ≤ (retSeg y (i - 1)).length := length_retSeg y (i - 1)
  have h1 : segSum y i - 1 = segSum y (i - 1) + ((retSeg y (i - 1)).length - 1) := by
    omega
  rw [h1, ret_getD_seg y (i - 1) _ hi1 (by omega)]
  unfold retSeg
  by_cases hc : retInsert y (i - 1) <;> simp [hc]

theorem segSum_decomp_aux (y : List Line) (m : Nat) : ∀ k, k < segSum y m →
    ∃ i, i < m ∧ segSum y i ≤ k ∧ k < segSum y (i + 1) := by
  induction m with
  | zero =>
    intro k hk
    rw [segSum_zero] at hk
    omega
  | succ m2 ih =>
    intro k hk
    rcases Nat.lt_or_ge k (segSum y m2) with h2 | h2
    · obtain ⟨i, hi, h3, h4⟩ := ih k h2
      exact ⟨i, by omega, h3, h4⟩
    · exact ⟨m2, by omega, h2, hk⟩

/-- Every output position falls in some input line's segment. -/
theorem ret_pos_decomp (y : List Line) (k : Nat) (hk : k < segSum y y.length) :
    ∃ i, i < y.length ∧ segSum y i ≤ k ∧ k < segSum y (i + 1) :=
  segSum_decomp_aux y y.length k hk

/-! ## The backward window after blank-line insertion

Inserting blank lines below the file's first line can only push context out
of the 4-line backward window or pad it with blanks; it can never turn a
failing brace scan into a success. -/

theorem braceScanL_cons (l : Line) (ls : List Line) :
    braceScanL (l :: ls) =
      if strip l == ['}'] then false
      else if strip l == ['{'] then true
      else braceScanL ls := rfl

/-- The window contents, expressed through `take`, `drop` and `reverse`: the
up-to-4 nearest lines above position `j`, excluding position 0. -/
theorem window_formula (w : List Line) (j : Nat) (hj : j ≤ w.length) :
    (windowIdxs j).map (fun t => w.getD t []) =
      (((w.take j).drop 1).reverse).take 4 := by
  apply List.ext_getElem
  · rw [List.length_map, windowIdxs_length]
    simp only [List.length_take, List.length_reverse, List.length_drop]
    omega
  · intro t h1 h2
    have hlt : t < (windowIdxs j).length := by simpa using h1
    rw [List.getElem_map, windowIdxs_getElem j t hlt]
    have hX : ((w.take j).drop 1).length = j - 1 := by
      simp only [List.length_drop, List.length_take]
      omega
    have ht4 : t < j - 1 := by
      rw [windowIdxs_length] at hlt
      omega
    have hidx : j - 1 - t = 1 + (((w.take j).drop 1).length - 1 - t) := by
      rw [hX]
      omega
    rw [hidx, List.getD_eq_getElem w [] (by rw [hX] at hidx; omega)]
    rw [List.getElem_take, List.getElem_reverse, List.getElem_drop, List.getElem_take]

/-- Relation between a scan sequence and a blank-padded, possibly truncated
version of it: `zs` is a prefix of `ys` with blank lines inserted. -/
inductive ScanPre : List Line → List Line → Prop
  | stop (ys : List Line) : ScanPre ys []
  | cons (l : Line) (ys zs : List Line) : ScanPre ys zs → ScanPre (l :: ys) (l :: zs)
  | blank (ys zs : List Line) : ScanPre ys zs → ScanPre ys ([] :: zs)

theorem braceScanL_transfer (ys zs : List Line) (h : ScanPre ys zs) :
    ∀ k, braceScanL (ys.take k) = false → ∀ m, m ≤ k →
      braceScanL (zs.take m) = false := by
  induction h with
  | stop ys =>
    intro k hk m hm
    simp [braceScanL]
  | cons l ys zs hsp ih =>
    intro k hk m hm
    cases m with
    | zero => simp [braceScanL]
    | succ m2 =>
      obtain ⟨k2, rfl⟩ : ∃ k2, k = k2 + 1 := ⟨k - 1, by omega⟩
      rw [List.take_succ_cons] at hk ⊢
      rw [braceScanL_cons] at hk ⊢
      by_cases h1 : strip l == ['}']
      · rw [if_pos h1]
      · rw [if_neg h1] at hk ⊢
        by_cases h2 : strip l == ['{']
        · rw [if_pos h2] at hk
          cases hk
        · rw [if_neg h2] at hk ⊢
          exact ih k2 hk m2 (by omega)
  | blank ys zs hsp ih =>
    intro k hk m hm
    cases m with
    | zero => simp [braceScanL]
    | succ m2 =>
      rw [List.take_succ_cons, braceScanL_cons, strip_nil]
      rw [if_neg (by simp), if_neg (by simp)]
      exact ih k hk m2 (by omega)

/-- Build the `ScanPre` relation: each element maps to itself, optionally
followed by a blank. -/
theorem scanPre_of_segments (f : Nat → Line) (g : Nat → List Line) :
    ∀ J : List Nat, (∀ j ∈ J, g j = [f j] ∨ g j = [f j, []]) →
    ScanPre (J.map f) ((J.map g).flatten) := by
  intro J
  induction J with
  | nil =>
    intro _
    exact ScanPre.stop []
  | cons j J ih =>
    intro hg
    have hgj := hg j (List.mem_cons_self j J)
    have hrest := ih (fun x hx => hg x (List.mem_cons_of_mem j hx))
    simp only [List.map_cons, List.flatten_cons]
    rcases hgj with h | h
    · rw [h]
      exact ScanPre.cons (f j) _ _ hrest
    · rw [h]
      exact ScanPre.cons (f j) _ _ (ScanPre.blank _ _ hrest)

theorem retInsert_zero (y : List Line) : retInsert y 0 = false := by
  unfold retInsert
  simp

theorem take_eq_map_range (w : List Line) (i : Nat) (hi : i ≤ w.length) :
    w.take i = (List.range i).map (fun j => w.getD j []) := by
  apply List.ext_getElem
  · simp only [List.length_take, List.length_map, List.length_range]
    omega
  · intro t h1 h2
    rw [List.getElem_take, List.getElem_map, List.getElem_range]
    rw [List.getD_eq_getElem w [] (by simp only [List.length_take] at h1; omega)]

theorem range_cons_one (i : Nat) (h : 1 ≤ i) :
    List.range i = 0 :: List.range' 1 (i - 1) := by
  rw [List.range_eq_range']
  obtain ⟨i2, rfl⟩ : ∃ i2, i = i2 + 1 := ⟨i - 1, by omega⟩
  rw [List.range'_succ]
  simp

theorem retSeg_zero (y : List Line) : retSeg y 0 = [y.getD 0 []] := by
  unfold retSeg
  rw [retInsert_zero]
  simp

theorem ret_take_segSum (y : List Line) (i : Nat) (hi : i ≤ y.length) :
    (fix_return_spacing y).take (segSum y i) =
      ((List.range i).map (retSeg y)).flatten := by
  unfold fix_return_spacing segSum
  rw [range_split i y.length hi, List.map_append, List.flatten_append, List.take_left]

/-- A failing in-function scan stays failing at the corresponding position
of the return pass's output. -/
theorem ret_inFunction_false (y : List Line) (i : Nat) (hi : i < y.length)
    (hin : inFunction y i = false) :
    inFunction (fix_return_spacing y) (segSum y i) = false := by
  by_cases hi0 : i = 0
  · subst hi0
    rw [segSum_zero]
    unfold inFunction
    rw [show windowIdxs 0 = [] from rfl]
    rfl
  · have h1 : 1 ≤ i := by omega
    have hzle : segSum y i ≤ (fix_return_spacing y).length := by
      rw [length_ret_eq_segSum]
      exact segSum_mono y i y.length (Nat.le_of_lt hi)
    unfold inFunction at hin ⊢
    rw [window_formula y i (Nat.le_of_lt hi)] at hin
    rw [window_formula (fix_return_spacing y) (segSum y i) hzle]
    rw [ret_take_segSum y i (Nat.le_of_lt hi)]
    have hysEq : ((y.take i).drop 1).reverse =
        ((List.range' 1 (i - 1)).reverse).map (fun j => y.getD j []) := by
      rw [take_eq_map_range y i (Nat.le_of_lt hi), range_cons_one i h1]
      rw [List.map_cons, List.drop_succ_cons, List.drop_zero, ← List.map_reverse]
    have hzsEq : ((((List.range i).map (retSeg y)).flatten).drop 1).reverse =
        (((List.range' 1 (i - 1)).reverse).map
          (fun j => (retSeg y j).reverse)).flatten := by
      rw [range_cons_one i h1, List.map_cons, List.flatten_cons, retSeg_zero]
      rw [List.singleton_append, List.drop_succ_cons, List.drop_zero]
      rw [List.reverse_flatten, List.map_map, ← List.map_reverse]
      rfl
    rw [hysEq] at hin
    rw [hzsEq]
    have hSP : ScanPre (((List.range' 1 (i - 1)).reverse).map (fun j => y.getD j []))
        ((((List.range' 1 (i - 1)).reverse).map (fun j => (retSeg y j).reverse)).flatten) := by
      apply scanPre_of_segments
      intro j _
      unfold retSeg
      by_cases hc : retInsert y j
      · right
        rw [if_pos hc]
        rfl
      · left
        rw [if_neg hc]
        rfl
    exact braceScanL_transfer _ _ hSP 4 hin 4 (le_refl 4)

/-! ## The return pass is idempotent -/

theorem flatten_singletons (f : Nat → Line) : ∀ L : List Nat,
    ((L.map (fun j => [f j])).flatten) = L.map f := by
  intro L
  induction L with
  | nil => rfl
  | cons a t ih => simp only [List.map_cons, List.flatten_cons, ih, List.singleton_append]

theorem ret_id_of_no_ins (v : List Line)
    (h : ∀ k, k < v.length → retInsert v k = false) :
    fix_return_spacing v = v := by
  unfold fix_return_spacing
  have hmap : (List.range v.length).map (retSeg v) =
      (List.range v.length).map (fun j => [v.getD j []]) := by
    apply List.map_congr_left
    intro a ha
    unfold retSeg
    rw [if_neg (by rw [h a (List.mem_range.mp ha)]; exact Bool.false_ne_true)]
  rw [hmap, flatten_singletons, ← take_eq_map_range v v.length (le_refl _),
    List.take_length]

theorem retQual_curl : retQual ['}'] = false := rfl

/-- No position of the return pass's output satisfies the insertion
condition again. -/
theorem ret_no_insert (y : List Line) (k : Nat)
    (hk : k < (fix_return_spacing y).length) :
    retInsert (fix_return_spacing y) k = false := by
  rw [length_ret_eq_segSum] at hk
  obtain ⟨i, hi, hk1, hk2⟩ := ret_pos_decomp y k hk
  by_cases hins : retInsert y i
  · have hlen2 := segSum_succ_ins y i hins
    by_cases hkb : k = segSum y i
    · subst hkb
      unfold retInsert
      rw [ret_getD_blank y i hi hins, strip_nil,
        show retQual [] = false from rfl]
      simp
    · have hk3 : k = segSum y i + 1 := by omega
      unfold retInsert
      have hprev : (fix_return_spacing y).getD (k - 1) [] = [] := by
        rw [hk3]
        simpa using ret_getD_blank y i hi hins
      rw [hprev, strip_nil]
      simp
  · rw [Bool.not_eq_true] at hins
    have hlen1 := segSum_succ_no y i hins
    have hkk : k = segSum y i := by omega
    subst hkk
    have hzk : (fix_return_spacing y).getD (segSum y i) [] = y.getD i [] := by
      have hp := ret_getD_pos y i hi
      unfold retPos at hp
      rwa [if_neg (by rw [hins]; exact Bool.false_ne_true)] at hp
    have hdec := hins
    unfold retInsert at hdec
    rw [Bool.and_eq_false_iff] at hdec
    rcases hdec with hdec | hlast
    · rw [Bool.and_eq_false_iff] at hdec
      rcases hdec with hdec | hinf
      · rw [Bool.and_eq_false_iff] at hdec
        rcases hdec with hq | hpb
        · unfold retInsert
          rw [hzk, hq]
          simp
        · rw [Bool.and_eq_false_iff] at hpb
          rcases hpb with hp0 | hpe
          · rw [decide_eq_false_iff_not] at hp0
            have hi0 : i = 0 := by omega
            subst hi0
            unfold retInsert
            rw [segSum_zero]
            simp
          · rw [Bool.not_eq_false'] at hpe
            by_cases hip : 0 < i
            · unfold retInsert
              rw [ret_getD_before y i hi hip hins, hpe]
              simp
            · have hi0 : i = 0 := by omega
              subst hi0
              unfold retInsert
              rw [segSum_zero]
              simp
      · have hIF := ret_inFunction_false y i hi hinf
        unfold retInsert
        rw [hIF]
        simp
    · rw [Bool.not_eq_false'] at hlast
      rw [Bool.and_eq_true] at hlast
      obtain ⟨hlt, hcurl⟩ := hlast
      rw [decide_eq_true_eq] at hlt
      rw [beq_iff_eq] at hcurl
      have hq1 : retQual (strip (y.getD (i + 1) [])) = false := by
        rw [hcurl]
        exact retQual_curl
      have hins1 : retInsert y (i + 1) = false := by
        unfold retInsert
        rw [hq1]
        simp
      have hznext : (fix_return_spacing y).getD (segSum y i + 1) [] =
          y.getD (i + 1) [] := by
        have hp := ret_getD_pos y (i + 1) hlt
        unfold retPos at hp
        rw [if_neg (by rw [hins1]; exact Bool.false_ne_true)] at hp
        have he : segSum y (i + 1) = segSum y i + 1 := hlen1
        rwa [he] at hp
      have hzlen : segSum y i + 1 < (fix_return_spacing y).length := by
        rw [length_ret_eq_segSum]
        have := segSum_strict y (i + 1) y.length hlt
        omega
      unfold retInsert
      rw [hznext, hcurl]
      simp [hzlen]

theorem ret_idem (y : List Line) :
    fix_return_spacing (fix_return_spacing y) = fix_return_spacing y :=
  ret_id_of_no_ins _ (fun k hk => ret_no_insert y k hk)

/-! ## The return pass preserves trigger-freeness -/

theorem ret_noTrig (v : List Line) (h : noTrig v) :
    noTrig (fix_return_spacing v) := by
  rw [noTrig, List.chain'_iff_get]
  intro k hk
  have hk1 : k < (fix_return_spacing v).length := by omega
  have hk2 : k + 1 < (fix_return_spacing v).length := by omega
  rw [List.get_eq_getElem, List.get_eq_getElem,
    ← List.getD_eq_getElem (fix_return_spacing v) [] hk1,
    ← List.getD_eq_getElem (fix_return_spacing v) [] hk2]
  have hk1' := hk1
  rw [length_ret_eq_segSum] at hk1'
  obtain ⟨i, hi, ha, hb⟩ := ret_pos_decomp v k hk1'
  by_cases hins : retInsert v i
  · have hl2 := segSum_succ_ins v i hins
    by_cases hkb : k = segSum v i
    · subst hkb
      rw [ret_getD_blank v i hi hins]
      exact funcIns_blank_left _
    · have hk3 : k = segSum v i + 1 := by omega
      have hzk : (fix_return_spacing v).getD k [] = v.getD i [] := by
        have hp := ret_getD_pos v i hi
        unfold retPos at hp
        rw [if_pos hins] at hp
        rwa [← hk3] at hp
      have hkk : k + 1 = segSum v (i + 1) := by omega
      have hi1 : i + 1 < v.length := by
        by_contra hc
        have : i + 1 = v.length := by omega
        rw [length_ret_eq_segSum, ← this, ← hkk] at hk2
        omega
      rw [hzk]
      have hznext : (fix_return_spacing v).getD (k + 1) [] =
          (retSeg v (i + 1)).getD 0 [] := by
        rw [hkk]
        have h0 : segSum v (i + 1) = segSum v (i + 1) + 0 := by omega
        rw [h0]
        exact ret_getD_seg v (i + 1) 0 hi1 (by
          rw [retSeg_length]
          by_cases hc : retInsert v (i + 1) <;> simp [hc])
      rw [hznext]
      by_cases hins1 : retInsert v (i + 1)
      · unfold retSeg
        rw [if_pos hins1]
        exact funcIns_blank_right _
      · unfold retSeg
        rw [if_neg hins1]
        have hch := (List.chain'_iff_get.mp h) i (by omega)
        rw [List.get_eq_getElem, List.get_eq_getElem,
          ← List.getD_eq_getElem v [] (by omega),
          ← List.getD_eq_getElem v [] (by omega)] at hch
        simpa using hch
  · rw [Bool.not_eq_true] at hins
    have hl1 := segSum_succ_no v i hins
    have hkk0 : k = segSum v i := by omega
    subst hkk0
    have hzk : (fix_return_spacing v).getD (segSum v i) [] = v.getD i [] := by
      have hp := ret_getD_pos v i hi
      unfold retPos at hp
      rwa [if_neg (by rw [hins]; exact Bool.false_ne_true)] at hp
    have hkk : segSum v i + 1 = segSum v (i + 1) := by omega
    have hi1 : i + 1 < v.length := by
      by_contra hc
      have hvi : i + 1 = v.length := by omega
      rw [length_ret_eq_segSum, ← hvi, ← hkk] at hk2
      omega
    rw [hzk]
    have hznext : (fix_return_spacing v).getD (segSum v i + 1) [] =
        (retSeg v (i + 1)).getD 0 [] := by
      rw [hkk]
      have h0 : segSum v (i + 1) = segSum v (i + 1) + 0 := by omega
      rw [h0]
      exact ret_getD_seg v (i + 1) 0 hi1 (by
        rw [retSeg_length]
        by_cases hc : retInsert v (i + 1) <;> simp [hc])
    rw [hznext]
    by_cases hins1 : retInsert v (i + 1)
    · unfold retSeg
      rw [if_pos hins1]
      exact funcIns_blank_right _
    · unfold retSeg
      rw [if_neg hins1]
      have hch := (List.chain'_iff_get.mp h) i (by omega)
      rw [List.get_eq_getElem, List.get_eq_getElem,
        ← List.getD_eq_getElem v [] (by omega),
        ← List.getD_eq_getElem v [] (by omega)] at hch
      simpa using hch

/-! ## Full three-pass idempotence (claim C1) -/

theorem mem_func (v : List Line) : ∀ l ∈ fix_function_spacing v, l ∈ v ∨ l = [] := by
  induction v with
  | nil =>
    intro l hl
    cases hl
  | cons a rest ih =>
    intro l hl
    cases rest with
    | nil =>
      rw [fix_function_spacing_single] at hl
      rw [List.mem_singleton.mp hl]
      exact Or.inl (List.mem_cons_self _ _)
    | cons b r =>
      rw [fix_function_spacing_cons_cons] at hl
      by_cases hf : funcIns a b
      · rw [if_pos hf] at hl
        rcases List.mem_cons.mp hl with rfl | hl2
        · exact Or.inl (List.mem_cons_self _ _)
        · rcases List.mem_cons.mp hl2 with rfl | hl3
          · exact Or.inr rfl
          · rcases ih l hl3 with hm | hm
            · exact Or.inl (List.mem_cons_of_mem a hm)
            · exact Or.inr hm
      · rw [if_neg hf] at hl
        rcases List.mem_cons.mp hl with rfl | hl2
        · exact Or.inl (List.mem_cons_self _ _)
        · rcases ih l hl2 with hm | hm
          · exact Or.inl (List.mem_cons_of_mem a hm)
          · exact Or.inr hm

theorem mem_ret (y : List Line) : ∀ l ∈ fix_return_spacing y, l ∈ y ∨ l = [] := by
  intro l hl
  unfold fix_return_spacing at hl
  rw [List.mem_flatten] at hl
  obtain ⟨s, hs, hls⟩ := hl
  rw [List.mem_map] at hs
  obtain ⟨i, hirange, rfl⟩ := hs
  have hi : i < y.length := List.mem_range.mp hirange
  unfold retSeg at hls
  have hgd : y.getD i [] ∈ y := by
    rw [List.getD_eq_getElem y [] hi]
    exact List.getElem_mem hi
  by_cases hc : retInsert y i
  · rw [if_pos hc] at hls
    rcases List.mem_cons.mp hls with rfl | hls2
    · exact Or.inr rfl
    · rcases List.mem_singleton.mp hls2 with rfl
      exact Or.inl hgd
  · rw [if_neg hc] at hls
    rcases List.mem_singleton.mp hls with rfl
    exact Or.inl hgd

theorem commLine_blank : commLine [] = [] := rfl

theorem comm_map_id (v : List Line) (h : ∀ l ∈ v, commLine l = l) :
    fix_comment_separators v = v := by
  unfold fix_comment_separators
  have := List.map_congr_left (f := commLine) (g := id) h
  rw [this, List.map_id]

/-- Claim C1: applying the full three-pass sequence twice yields the same
output as applying it once.  After one run, every line is either a banner
pass output (on which each rule acts as the identity) or an inserted blank
line, so `fix_comment_separators` is the identity; no `}` line is followed
directly by a `/**` line, so `fix_function_spacing` is the identity; and no
return line still satisfies the insertion condition, so `fix_return_spacing`
is the identity. -/
theorem claim_c1_idempotence (lines : List Line) :
    processContent (processContent lines) = processContent lines := by
  unfold processContent
  have hcommstable : ∀ l ∈ fix_return_spacing (fix_function_spacing
      (fix_comment_separators lines)), commLine l = l := by
    intro l hl
    rcases mem_ret _ l hl with hmem | rfl
    · rcases mem_func _ l hmem with hmem2 | rfl
      · unfold fix_comment_separators at hmem2
        rcases List.mem_map.mp hmem2 with ⟨t, -, rfl⟩
        exact commLine_idem t
      · exact commLine_blank
    · exact commLine_blank
  rw [comm_map_id _ hcommstable]
  rw [func_id_of_noTrig _ (ret_noTrig _ (func_noTrig (fix_comment_separators lines)))]
  exact ret_idem _

/-- Witness for claim C10 at the concrete line `return 0; bar();`. -/
theorem claim_c10_witness :
    retQual "return 0; bar();".data = true ∧
    fix_return_spacing
        ["a".data, "\x7b".data, "x();".data, "return 0; bar();".data, "y();".data] =
      ["a".data, "\x7b".data, "x();".data, [], "return 0; bar();".data, "y();".data] :=
  claim_c10_return_pattern "return 0; bar();".data (by decide)
    ⟨' ', "0; bar();".data, by decide, by decide, by decide⟩

/-- Witness for claim C9 at `{ / x / return 1; / y` with the return on
line 2. -/
theorem claim_c9_witness :
    (∀ m : Nat, ∀ j ∈ windowIdxs m, 1 ≤ j) ∧
    inFunction ["\x7b".data, "x".data, "return 1;".data, "y".data] 2 = false ∧
    retInsert ["\x7b".data, "x".data, "return 1;".data, "y".data] 2 = false :=
  claim_c9_scan_excludes_first_line ["\x7b".data, "x".data, "return 1;".data, "y".data]
    2 (by decide) (by decide) (by decide) (by decide) (by decide)

end FixCodeStyle
